import Mathlib

/-!
Shallow embedding of the LiteBot repository (files `litebot/litebot.py` and
`litebot/core/minecraft/commands/action.py`) used to verify the claims of the
specification.  Python dictionaries with string keys are modelled as
association lists with the usual dict semantics (lookup of the first
occurrence, in-place update, deletion of the key); Python values appearing in
command payloads are modelled by the inductive `Value` together with Python
truthiness.
-/

namespace LiteBotSpec

/-- Lookup in a string-keyed dict modelled as an association list
(first occurrence wins; a real dict has unique keys). -/
def dictGet? {α : Type} : List (String × α) → String → Option α
  | [], _ => none
  | (k2, v) :: rest, k => if k2 = k then some v else dictGet? rest k

/-- Python `del d[k]`: remove the key `k` from the dict. -/
def dictDel {α : Type} (d : List (String × α)) (k : String) : List (String × α) :=
  d.filter (fun p => !(p.1 == k))

/-- Python `d[k] = v`: update the value in place when the key exists, else append. -/
def dictInsert {α : Type} : List (String × α) → String → α → List (String × α)
  | [], k, v => [(k, v)]
  | (k2, w) :: rest, k, v =>
    if k2 = k then (k, v) :: rest else (k2, w) :: dictInsert rest k v

/-- Python `k in d`. -/
def dictContains {α : Type} (d : List (String × α)) (k : String) : Bool :=
  (dictGet? d k).isSome

/-- A JSON-ish Python value occurring in a command payload. -/
inductive Value where
  | vnull : Value
  | vbool (b : Bool) : Value
  | vint (n : Int) : Value
  | vstr (s : String) : Value
deriving DecidableEq, Repr

/-- Python truthiness of a `Value`. -/
def Value.truthy : Value → Bool
  | .vnull => false
  | .vbool b => b
  | .vint n => !(n == 0)
  | .vstr s => !(s == "")

/-- Truthiness of `args.get(name)`: `None` (absent key) is falsy. -/
def truthyOpt : Option Value → Bool
  | none => false
  | some v => v.truthy

/-- One entry of a command's `arguments` list, as built by
`ServerCommand._build_args`: `{"name": ..., "type": ..., "optional": ...}`. -/
structure Arg where
  name : String
  type : String
  optional : Bool
deriving DecidableEq, Repr

/-- The loop of `ServerCommand.create_context`: for each declared argument,
`cmd_args[name] = args.get(name)`, and when that value is truthy,
`del args[name]`.  Returns the pair (`cmd_args`, final mutated `args`);
because `full_args = data.get("args")` aliases the same dict, the final
mutated `args` is also the context's `full_args`. -/
def ccLoop : List Arg → List (String × Value) →
    List (String × Option Value) × List (String × Value)
  | [], args => ([], args)
  | a :: rest, args =>
    let v := dictGet? args a.name
    let args2 := if truthyOpt v then dictDel args a.name else args
    let res := ccLoop rest args2
    ((a.name, v) :: res.1, res.2)

/-- Model of `ServerCommand.create_context`, restricted to its argument-processing
behaviour: from the command's declared `arguments` and the payload's `args`
dict, produce the context's restricted mapping (`args=cmd_args`) and the
full payload mapping after the loop (`full_args`, aliasing the drained
dict). -/
def createContext (arguments : List Arg) (payload : List (String × Value)) :
    List (String × Option Value) × List (String × Value) :=
  ccLoop arguments payload

/-- Boolean membership of a key in a key list. -/
def memB (ks : List String) (k : String) : Bool :=
  ks.any (fun k2 => k2 == k)

theorem memB_nil (k : String) : memB [] k = false := rfl

theorem memB_cons (n k : String) (rest : List String) :
    memB (n :: rest) k = ((n == k) || memB rest k) := rfl

theorem dictGet?_dictDel_ne {α : Type} (d : List (String × α)) (k n : String)
    (h : k ≠ n) : dictGet? (dictDel d n) k = dictGet? d k := by
  induction d with
  | nil => rfl
  | cons p rest ih =>
    obtain ⟨k2, v⟩ := p
    by_cases hk : k2 = n
    · subst hk
      simp [dictDel, dictGet?, (Ne.symm h)] at *
      simpa [dictDel] using ih
    · by_cases hk2 : k2 = k
      · subst hk2
        simp [dictDel, dictGet?, hk]
      · simp [dictDel, dictGet?, hk, hk2] at *
        simpa [dictDel] using ih

theorem dictGet?_dictDel_self {α : Type} (d : List (String × α)) (k : String) :
    dictGet? (dictDel d k) k = none := by
  induction d with
  | nil => rfl
  | cons p rest ih =>
    obtain ⟨k2, v⟩ := p
    by_cases hk : k2 = k
    · subst hk
      simpa [dictDel, dictGet?] using ih
    · simp [dictDel, dictGet?, hk] at *
      simpa [dictDel] using ih

theorem dictGet?_dictDel_none {α : Type} (d : List (String × α)) (k n : String)
    (h : dictGet? d k = none) : dictGet? (dictDel d n) k = none := by
  by_cases hk : k = n
  · subst hk; exact dictGet?_dictDel_self d k
  · rw [dictGet?_dictDel_ne d k n hk]; exact h

theorem dictGet?_none_forall {α : Type} :
    ∀ (d : List (String × α)) (k : String), dictGet? d k = none →
      ∀ p ∈ d, p.1 ≠ k := by
  intro d
  induction d with
  | nil => intro k _ p hp; cases hp
  | cons q rest ih =>
    intro k h p hp
    obtain ⟨k2, v⟩ := q
    by_cases hk : k2 = k
    · subst hk; simp [dictGet?] at h
    · rcases List.mem_cons.mp hp with hp | hp
      · subst hp; exact hk
      · have h2 : dictGet? rest k = none := by simpa [dictGet?, hk] using h
        exact ih k h2 p hp

theorem dictGet?_some_unique {α : Type} :
    ∀ (d : List (String × α)) (k : String) (v : α),
      (d.map Prod.fst).Nodup → dictGet? d k = some v →
      ∀ p ∈ d, p.1 = k → p.2 = v := by
  intro d
  induction d with
  | nil => intro k v _ _ p hp; cases hp
  | cons q rest ih =>
    intro k v hnd h p hp hpk
    obtain ⟨k2, w⟩ := q
    have hnd2 : (rest.map Prod.fst).Nodup := (List.nodup_cons.mp hnd).2
    by_cases hk : k2 = k
    · subst hk
      have hw : w = v := by simpa [dictGet?] using h
      rcases List.mem_cons.mp hp with hp | hp
      · subst hp; exact hw
      · exfalso
        have hmem : k2 ∈ rest.map Prod.fst := by
          rw [← hpk]; exact List.mem_map_of_mem Prod.fst hp
        exact (List.nodup_cons.mp hnd).1 hmem
    · rcases List.mem_cons.mp hp with hp | hp
      · subst hp; exact absurd hpk hk
      · have h2 : dictGet? rest k = some v := by simpa [dictGet?, hk] using h
        exact ih k v hnd2 h2 p hp hpk

theorem dictDel_keys_nodup {α : Type} (d : List (String × α)) (k : String)
    (hnd : (d.map Prod.fst).Nodup) : ((dictDel d k).map Prod.fst).Nodup := by
  have hsub : List.Sublist (dictDel d k) d := List.filter_sublist d
  exact (hsub.map Prod.fst).nodup hnd

/-- The parsed-argument mapping built by `create_context` always has as keys
exactly the declared argument names, in declaration order. -/
theorem ccLoop_fst_keys (arguments : List Arg) (payload : List (String × Value)) :
    (ccLoop arguments payload).1.map Prod.fst = arguments.map Arg.name := by
  induction arguments generalizing payload with
  | nil => rfl
  | cons a rest ih => simp [ccLoop, ih]

/-- A declared argument absent from the payload is bound to `none` in the
parsed mapping. -/
theorem ccLoop_absent_none :
    ∀ (arguments : List Arg) (payload : List (String × Value)) (a : Arg),
      a ∈ arguments → dictGet? payload a.name = none →
      (a.name, (none : Option Value)) ∈ (ccLoop arguments payload).1 := by
  intro arguments
  induction arguments with
  | nil => intro payload a ha _; cases ha
  | cons b rest ih =>
    intro payload a ha habs
    rcases List.mem_cons.mp ha with ha | ha
    · subst ha
      simp [ccLoop, habs]
    · have h2 : dictGet?
          (if truthyOpt (dictGet? payload b.name) = true
            then dictDel payload b.name else payload) a.name = none := by
        by_cases ht : truthyOpt (dictGet? payload b.name) = true
        · rw [if_pos ht]; exact dictGet?_dictDel_none payload a.name b.name habs
        · rw [if_neg ht]; exact habs
      simp only [ccLoop]
      exact List.mem_cons_of_mem _ (ih _ a ha h2)

/-- With distinct declared names, the parsed mapping binds each declared name
to its lookup in the original payload. -/
theorem ccLoop_fst_eq :
    ∀ (arguments : List Arg) (payload : List (String × Value)),
      (arguments.map Arg.name).Nodup →
      (ccLoop arguments payload).1 =
        arguments.map (fun a => (a.name, dictGet? payload a.name)) := by
  intro arguments
  induction arguments with
  | nil => intro payload _; rfl
  | cons b rest ih =>
    intro payload hnd
    have hnd2 : (rest.map Arg.name).Nodup := (List.nodup_cons.mp hnd).2
    have hb : b.name ∉ rest.map Arg.name := (List.nodup_cons.mp hnd).1
    simp only [ccLoop, List.map_cons]
    by_cases ht : truthyOpt (dictGet? payload b.name) = true
    · rw [if_pos ht, ih (dictDel payload b.name) hnd2]
      congr 1
      apply List.map_congr_left
      intro a ha
      have hne : a.name ≠ b.name := by
        intro h
        exact hb (h ▸ List.mem_map_of_mem Arg.name ha)
      rw [dictGet?_dictDel_ne payload a.name b.name hne]
    · rw [if_neg ht, ih payload hnd2]

/-- With a well-formed payload dict, the drained payload after the
`create_context` loop keeps exactly the entries whose key is not a declared
name with a truthy value. -/
theorem ccLoop_snd_eq :
    ∀ (arguments : List Arg) (payload : List (String × Value)),
      (payload.map Prod.fst).Nodup →
      (ccLoop arguments payload).2 =
        payload.filter
          (fun p => !(memB (arguments.map Arg.name) p.1 && p.2.truthy)) := by
  intro arguments
  induction arguments with
  | nil =>
    intro payload _
    simp [ccLoop, memB]
  | cons b rest ih =>
    intro payload hnd
    simp only [ccLoop, List.map_cons]
    by_cases ht : truthyOpt (dictGet? payload b.name) = true
    · rw [if_pos ht, ih (dictDel payload b.name) (dictDel_keys_nodup payload b.name hnd)]
      unfold dictDel
      rw [List.filter_filter]
      apply List.filter_congr
      intro p hp
      by_cases hk : p.1 = b.name
      · obtain ⟨v, hv⟩ : ∃ v, dictGet? payload b.name = some v := by
          cases h : dictGet? payload b.name with
          | none => rw [h] at ht; simp [truthyOpt] at ht
          | some v => exact ⟨v, rfl⟩
        have hpv : p.2 = v := dictGet?_some_unique payload b.name v hnd hv p hp hk
        have htv : v.truthy = true := by simpa [truthyOpt, hv] using ht
        simp [hk, hpv, htv, memB_cons]
      · have h1 : (p.1 == b.name) = false := beq_eq_false_iff_ne.mpr hk
        have h2 : (b.name == p.1) = false := beq_eq_false_iff_ne.mpr (Ne.symm hk)
        simp [memB_cons, h1, h2]
    · rw [if_neg ht, ih payload hnd]
      apply List.filter_congr
      intro p hp
      by_cases hk : p.1 = b.name
      · have hfalse : p.2.truthy = false := by
          cases h : dictGet? payload b.name with
          | none =>
            exact absurd hk (dictGet?_none_forall payload b.name h p hp)
          | some v =>
            have hpv : p.2 = v := dictGet?_some_unique payload b.name v hnd h p hp hk
            rw [hpv]
            simpa [truthyOpt, h] using ht
        simp [hk, hfalse, memB_cons]
      · have h1 : (p.1 == b.name) = false := beq_eq_false_iff_ne.mpr hk
        have h2 : (b.name == p.1) = false := beq_eq_false_iff_ne.mpr (Ne.symm hk)
        simp [memB_cons, h1, h2]

/-- C1: the claim states that `create_context` removes every declared
argument name from the original payload.  Counterexample: for a command
declaring argument `x` and payload `args={"x": 0}`, the value `0` is falsy,
so the `del` guard `if args.get(name):` fails and `x` is NOT removed — the
drained payload still contains `x`. -/
theorem createContext_drop_falsy_cex :
    createContext [⟨"x", "NumberArgumentType", false⟩] [("x", Value.vint 0)] =
      ([("x", some (Value.vint 0))], [("x", Value.vint 0)]) ∧
    dictContains
      (createContext [⟨"x", "NumberArgumentType", false⟩]
        [("x", Value.vint 0)]).2 "x" = true := by
  decide

/-- C1 (amended): `create_context` extracts into the restricted mapping an
entry for every declared argument name bound to its payload lookup, and
removes from the original payload exactly the declared names whose bound
value is truthy (the in-place `del` is guarded by Python truthiness); on the
spec's example `args={"x":1,"y":2,"z":3}` with declared `{"x","y"}`, all
values are truthy, so the restricted mapping is `{"x":1,"y":2}` and the
drained payload is `{"z":3}`. -/
theorem createContext_drains_truthy (arguments : List Arg)
    (payload : List (String × Value))
    (h1 : (arguments.map Arg.name).Nodup)
    (h2 : (payload.map Prod.fst).Nodup) :
    (createContext arguments payload).1 =
      arguments.map (fun a => (a.name, dictGet? payload a.name)) ∧
    (createContext arguments payload).2 =
      payload.filter
        (fun p => !(memB (arguments.map Arg.name) p.1 && p.2.truthy)) :=
  ⟨ccLoop_fst_eq arguments payload h1, ccLoop_snd_eq arguments payload h2⟩

theorem createContext_drains_truthy_inst :
    (createContext [⟨"x", "t", false⟩, ⟨"y", "t", false⟩]
        [("x", Value.vint 1), ("y", Value.vint 2), ("z", Value.vint 3)]).1 =
      ([⟨"x", "t", false⟩, ⟨"y", "t", false⟩] : List Arg).map
        (fun a => (a.name,
          dictGet? [("x", Value.vint 1), ("y", Value.vint 2), ("z", Value.vint 3)] a.name)) ∧
    (createContext [⟨"x", "t", false⟩, ⟨"y", "t", false⟩]
        [("x", Value.vint 1), ("y", Value.vint 2), ("z", Value.vint 3)]).2 =
      [("x", Value.vint 1), ("y", Value.vint 2), ("z", Value.vint 3)].filter
        (fun p => !(memB (([⟨"x", "t", false⟩, ⟨"y", "t", false⟩] : List Arg).map Arg.name) p.1
          && p.2.truthy)) :=
  createContext_drains_truthy
    [⟨"x", "t", false⟩, ⟨"y", "t", false⟩]
    [("x", Value.vint 1), ("y", Value.vint 2), ("z", Value.vint 3)]
    (by decide) (by decide)

/-- C10: the parsed-argument mapping built by `create_context` has as key set
exactly the declared argument names (in declaration order), and a declared
argument that is absent from the incoming payload is still present, bound to
`None`. -/
theorem createContext_declared_keys_spec (arguments : List Arg)
    (payload : List (String × Value)) :
    (createContext arguments payload).1.map Prod.fst = arguments.map Arg.name ∧
    (∀ a ∈ arguments, dictGet? payload a.name = none →
      (a.name, (none : Option Value)) ∈ (createContext arguments payload).1) :=
  ⟨ccLoop_fst_keys arguments payload,
   fun a ha habs => ccLoop_absent_none arguments payload a ha habs⟩

theorem createContext_declared_keys_inst :
    (createContext [⟨"x", "t", false⟩, ⟨"y", "t", false⟩]
        [("y", Value.vint 2)]).1.map Prod.fst = ["x", "y"] ∧
    ("x", (none : Option Value)) ∈
      (createContext [⟨"x", "t", false⟩, ⟨"y", "t", false⟩]
        [("y", Value.vint 2)]).1 :=
  ⟨(createContext_declared_keys_spec
      [⟨"x", "t", false⟩, ⟨"y", "t", false⟩] [("y", Value.vint 2)]).1,
   (createContext_declared_keys_spec
      [⟨"x", "t", false⟩, ⟨"y", "t", false⟩] [("y", Value.vint 2)]).2
     ⟨"x", "t", false⟩ (by decide) (by decide)⟩

/-- A `ServerCommand` viewed through its `parent` chain; `ServerCommand.sub`
constructs each subcommand with `parent=self`, so a command is either a root
(no parent, as built by the `command()` decorator) or a child of the command
it was registered on. -/
inductive PCmd where
  | root (name : String) : PCmd
  | child (name : String) (parent : PCmd) : PCmd

/-- Accessor for `self.name`. -/
def PCmd.name : PCmd → String
  | .root n => n
  | .child n _ => n

/-- Model of `ServerCommand._get_full_path`: `res = [self.name]`, extended with the
parent's full path when a parent exists (leaf-to-root order). -/
def PCmd.getFullPath : PCmd → List String
  | .root n => [n]
  | .child n p => n :: p.getFullPath

/-- Model of `ServerCommand.full_name`: `".".join(self._get_full_path()[::-1])`. -/
def PCmd.fullName (c : PCmd) : String :=
  String.intercalate "." c.getFullPath.reverse

/-- Model of `ServerCommand.root_parent`: walk `parent` links while one exists. -/
def PCmd.rootParent : PCmd → PCmd
  | .root n => .root n
  | .child _ p => p.rootParent

/-- The chain of names from the root ancestor down to the command. -/
def PCmd.namesFromRoot : PCmd → List String
  | .root n => [n]
  | .child n p => p.namesFromRoot ++ [n]

theorem getFullPath_eq_reverse (c : PCmd) :
    c.getFullPath = c.namesFromRoot.reverse := by
  induction c with
  | root n => rfl
  | child n p ih => simp [PCmd.getFullPath, PCmd.namesFromRoot, ih]

theorem fullName_eq_namesFromRoot (c : PCmd) :
    c.fullName = String.intercalate "." c.namesFromRoot := by
  rw [PCmd.fullName, getFullPath_eq_reverse, List.reverse_reverse]

/-- C3: the claim states that for a 3-level tree `root → sub → subsub`,
`subsub.full_name` equals `"subsub.sub.root"`.  Counterexample: the code
reverses the leaf-to-root path before joining, so the value is
`"root.sub.subsub"`, which differs from the claimed string. -/
theorem fullName_leaf_order_cex :
    (PCmd.child "subsub" (PCmd.child "sub" (PCmd.root "root"))).fullName =
      "root.sub.subsub" ∧
    (PCmd.child "subsub" (PCmd.child "sub" (PCmd.root "root"))).fullName ≠
      "subsub.sub.root" := by
  constructor
  · rfl
  · decide

/-- C3 (amended): for every 3-level command tree `root → sub → subsub` built
via `.sub` registration, `subsub.full_name` is the dot-joined chain of names
from the root ancestor down to the command itself — `"root.sub.subsub"`, not
`"subsub.sub.root"` — and `subsub.root_parent` is the root command; in
general `full_name` dot-joins `namesFromRoot` (root ancestor down to the
command). -/
theorem fullName_rootParent_spec (n1 n2 n3 : String) :
    (PCmd.child n3 (PCmd.child n2 (PCmd.root n1))).fullName =
      String.intercalate "." [n1, n2, n3] ∧
    (PCmd.child n3 (PCmd.child n2 (PCmd.root n1))).rootParent = PCmd.root n1 ∧
    ∀ c : PCmd, c.fullName = String.intercalate "." c.namesFromRoot :=
  ⟨rfl, rfl, fullName_eq_namesFromRoot⟩

/-- A `ServerCommand` viewed through its `subs` mapping (dict iteration order
modelled as list order), carrying the fields used by `build` and
`update_cog_ref`.  The cog reference is modelled by an identity token. -/
inductive SCmdTree where
  | node (name : String) (opLevel : Nat) (register : Bool) (cog : Option Nat)
      (arguments : List Arg) (subs : List SCmdTree) : SCmdTree

/-- Accessor for `self.cog`. -/
def SCmdTree.cog : SCmdTree → Option Nat
  | .node _ _ _ c _ _ => c

/-- Accessor for `self.subs.values()`. -/
def SCmdTree.subs : SCmdTree → List SCmdTree
  | .node _ _ _ _ _ s => s

/-- Accessor for `self.register`. -/
def SCmdTree.register : SCmdTree → Bool
  | .node _ _ r _ _ _ => r

/-- Accessor for `self.name`. -/
def SCmdTree.cname : SCmdTree → String
  | .node n _ _ _ _ _ => n

/-- Accessor for `self.op_level`. -/
def SCmdTree.opLevel : SCmdTree → Nat
  | .node _ o _ _ _ _ => o

/-- Accessor for `self.arguments`. -/
def SCmdTree.arguments : SCmdTree → List Arg
  | .node _ _ _ _ a _ => a

/-- The JSON value returned by `ServerCommand.build` for a registered
command: `{"name": ..., "OPLevel": ..., "arguments": ..., "subs": ...}`,
where each entry of `subs` is the child's own build result (possibly the
absent sentinel `none`). -/
inductive Schema where
  | mk (name : String) (opLevel : Nat) (arguments : List Arg)
      (subs : List (Option Schema)) : Schema

mutual

/-- Model of `ServerCommand.build`: `return` (the absent sentinel) when `register` is
false, otherwise the data dict whose `subs` list collects `sub.build()` over
`self.subs.values()`. -/
def SCmdTree.build : SCmdTree → Option Schema
  | .node n o r _ a subs =>
    if r then some (Schema.mk n o a (buildSubs subs)) else none

/-- The `for sub in self.subs.values(): subs.append(sub.build())` loop. -/
def buildSubs : List SCmdTree → List (Option Schema)
  | [] => []
  | s :: rest => s.build :: buildSubs rest

end

theorem buildSubs_eq_map (l : List SCmdTree) :
    buildSubs l = l.map SCmdTree.build := by
  induction l with
  | nil => rfl
  | cons s rest ih => simp [buildSubs, ih]

/-- C4: `build()` returns the absent sentinel when `register` is false, and
otherwise the structure `{name, OPLevel, arguments, subs}` where `subs` is
the list of the children's own `build()` results in the iteration order of
the `subs` mapping — so an unregistered child contributes the sentinel
`none` inside its parent's `subs` list. -/
theorem build_register_spec (n : String) (o : Nat) (r : Bool) (cg : Option Nat)
    (a : List Arg) (subs : List SCmdTree) :
    (SCmdTree.node n o r cg a subs).build =
      if r then some (Schema.mk n o a (subs.map SCmdTree.build)) else none := by
  simp [SCmdTree.build, buildSubs_eq_map]

/-- The assignment `sub.cog = cog`: assignment to the node's own cog field only. -/
def SCmdTree.setCogField (c : Nat) : SCmdTree → SCmdTree
  | .node n o r _ a subs => .node n o r (some c) a subs

/-- Model of `ServerCommand.update_cog_ref`: `self.cog = cog`, then for each direct
subcommand the field assignment `sub.cog = cog` (not a recursive call). -/
def SCmdTree.updateCogRef (c : Nat) : SCmdTree → SCmdTree
  | .node n o r _ a subs =>
    .node n o r (some c) a (subs.map (SCmdTree.setCogField c))

/-- C6: the claim states that `update_cog_ref` sets the cog reference
recursively on every subcommand at every level.  Counterexample: on a
3-level tree the loop body is the plain assignment `sub.cog = cog`, so the
grandchild's cog is left untouched (`none`, not `some 5`). -/
theorem updateCogRef_grandchild_cex :
    ((SCmdTree.updateCogRef 5
        (SCmdTree.node "a" 0 true none []
          [SCmdTree.node "b" 0 true none []
            [SCmdTree.node "c" 0 true none [] []]])).subs.map
      (fun s => s.subs.map SCmdTree.cog)) = [[(none : Option Nat)]] ∧
    (none : Option Nat) ≠ some 5 := by
  constructor
  · rfl
  · decide

/-- C6 (amended): `update_cog_ref` sets the cog reference on the command
itself and on each of its direct subcommands, and leaves every deeper
descendant unchanged (the loop assigns only the child's own `cog` field and
does not recurse). -/
theorem updateCogRef_depth_one_spec (c : Nat) (n : String) (o : Nat) (r : Bool)
    (cg : Option Nat) (a : List Arg) (subs : List SCmdTree) :
    SCmdTree.updateCogRef c (SCmdTree.node n o r cg a subs) =
      SCmdTree.node n o r (some c) a (subs.map (SCmdTree.setCogField c)) ∧
    ∀ s : SCmdTree, (SCmdTree.setCogField c s).cog = some c ∧
      (SCmdTree.setCogField c s).subs = s.subs := by
  refine ⟨rfl, fun s => ?_⟩
  cases s
  exact ⟨rfl, rfl⟩

/-- The state of `GroupMixin`'s command registries: the `server_commands`
dict keyed by full name, together with a model of the chat platform's native
command mapping reached through `super().add_command` and
`super().remove_command` (native commands identified by name and an id). -/
structure Registry where
  serverCommands : List (String × PCmd)
  nativeCommands : List (String × Nat)

/-- A command passed to `GroupMixin.add_command`: either a `ServerCommand`
or a native chat command. -/
inductive BotCommand where
  | server (c : PCmd) : BotCommand
  | native (name : String) (id : Nat) : BotCommand

/-- Model of `GroupMixin.add_command`: a non-`ServerCommand` is delegated to the
native mechanism, a `ServerCommand` is stored under its dot-joined full
name. -/
def addCommand (r : Registry) : BotCommand → Registry
  | .server c => { r with serverCommands := dictInsert r.serverCommands c.fullName c }
  | .native n i => { r with nativeCommands := dictInsert r.nativeCommands n i }

/-- Model of `GroupMixin.remove_command`: a name not present in `server_commands` is
delegated to the native removal path, otherwise the entry is popped from
`server_commands`. -/
def removeCommand (r : Registry) (name : String) : Registry :=
  if dictContains r.serverCommands name = true
  then { r with serverCommands := dictDel r.serverCommands name }
  else { r with nativeCommands := dictDel r.nativeCommands name }

/-- C7: adding a native command touches only the native mapping; adding a
`ServerCommand` stores it in `server_commands` under its dot-joined full
name and leaves the native mapping unchanged; removing a name present in
`server_commands` deletes only that entry (lookups of every other key, and
the native mapping, are unchanged); removing a name not present in
`server_commands` delegates to the native removal path. -/
theorem registry_commands_spec (r : Registry) (n : String) (i : Nat) (c : PCmd)
    (name : String) :
    ((addCommand r (.native n i)).serverCommands = r.serverCommands ∧
      (addCommand r (.native n i)).nativeCommands = dictInsert r.nativeCommands n i) ∧
    ((addCommand r (.server c)).serverCommands =
        dictInsert r.serverCommands c.fullName c ∧
      (addCommand r (.server c)).nativeCommands = r.nativeCommands) ∧
    (dictContains r.serverCommands name = true →
      (removeCommand r name).nativeCommands = r.nativeCommands ∧
      dictGet? (removeCommand r name).serverCommands name = none ∧
      (∀ k, k ≠ name →
        dictGet? (removeCommand r name).serverCommands k =
          dictGet? r.serverCommands k)) ∧
    (dictContains r.serverCommands name = false →
      (removeCommand r name).serverCommands = r.serverCommands ∧
      (removeCommand r name).nativeCommands = dictDel r.nativeCommands name) := by
  refine ⟨⟨rfl, rfl⟩, ⟨rfl, rfl⟩, ?_, ?_⟩
  · intro h
    refine ⟨by simp [removeCommand, h], ?_, ?_⟩
    · simp only [removeCommand, h, if_pos]
      exact dictGet?_dictDel_self r.serverCommands name
    · intro k hk
      simp only [removeCommand, h, if_pos]
      exact dictGet?_dictDel_ne r.serverCommands k name hk
  · intro h
    constructor
    · simp [removeCommand, h]
    · simp [removeCommand, h]

theorem registry_commands_inst :
    dictContains (Registry.mk [("root.sub", PCmd.child "sub" (PCmd.root "root"))]
        [("ping", 1)]).serverCommands "root.sub" = true ∧
    (removeCommand (Registry.mk [("root.sub", PCmd.child "sub" (PCmd.root "root"))]
        [("ping", 1)]) "root.sub").nativeCommands = [("ping", 1)] ∧
    dictGet? (removeCommand (Registry.mk
        [("root.sub", PCmd.child "sub" (PCmd.root "root"))]
        [("ping", 1)]) "root.sub").serverCommands "root.sub" = none := by
  refine ⟨by decide, ?_, ?_⟩
  · exact (registry_commands_spec
      (Registry.mk [("root.sub", PCmd.child "sub" (PCmd.root "root"))] [("ping", 1)])
      "" 0 (PCmd.root "") "root.sub").2.2.1 (by decide) |>.1
  · exact (registry_commands_spec
      (Registry.mk [("root.sub", PCmd.child "sub" (PCmd.root "root"))] [("ping", 1)])
      "" 0 (PCmd.root "") "root.sub").2.2.1 (by decide) |>.2.1

/-- Model of `GroupMixin.remove_server_listener`: re-binds `server_events[name]` to
the identity-filtered listener list; the subscript access
`self.server_events[name]` raises `KeyError` when no list exists for the
event name.  Listener callables are modelled by identity tokens. -/
def removeServerListener (events : List (String × List Nat)) (f : Nat)
    (name : String) : Except String (List (String × List Nat)) :=
  match dictGet? events name with
  | none => .error "KeyError"
  | some fs => .ok (dictInsert events name (fs.filter (fun e => !(e == f))))

theorem dictInsert_self {α : Type} :
    ∀ (d : List (String × α)) (k : String) (v : α),
      dictGet? d k = some v → dictInsert d k v = d := by
  intro d
  induction d with
  | nil => intro k v h; cases h
  | cons q rest ih =>
    intro k v h
    obtain ⟨k2, w⟩ := q
    by_cases hk : k2 = k
    · subst hk
      have hw : w = v := by simpa [dictGet?] using h
      simp [dictInsert, hw]
    · have h2 : dictGet? rest k = some v := by simpa [dictGet?, hk] using h
      simp [dictInsert, hk, ih k v h2]

/-- C8: the claim states that removing an unregistered listener never
raises, including when no listener list exists for the event name.
Counterexample: with `server_events = {"leave": [1]}`, removing any listener
for the event name `"join"` hits the bare subscript
`self.server_events["join"]` and raises `KeyError`. -/
theorem removeServerListener_keyerror_cex :
    removeServerListener [("leave", [1])] 0 "join" = .error "KeyError" := by
  rfl

/-- C8 (amended): when a listener list exists for the event name,
`remove_server_listener` removes the listener by identity (filtering every
occurrence) without raising, and if the listener was not registered there
the registry is left unchanged; when no listener list exists for the event
name, the lookup raises `KeyError`. -/
theorem removeServerListener_spec (events : List (String × List Nat)) (f : Nat)
    (name : String) :
    (∀ fs, dictGet? events name = some fs →
      removeServerListener events f name =
        .ok (dictInsert events name (fs.filter (fun e => !(e == f)))) ∧
      (f ∉ fs → removeServerListener events f name = .ok events)) ∧
    (dictGet? events name = none →
      removeServerListener events f name = .error "KeyError") := by
  constructor
  · intro fs h
    constructor
    · simp [removeServerListener, h]
    · intro hf
      have hfilter : fs.filter (fun e => !(e == f)) = fs := by
        apply List.filter_eq_self.mpr
        intro a ha
        have : a ≠ f := fun haf => hf (haf ▸ ha)
        simp [this]
      simp [removeServerListener, h, hfilter, dictInsert_self events name fs h]
  · intro h
    simp [removeServerListener, h]

theorem removeServerListener_inst :
    dictGet? [("join", [1, 2])] "join" = some [1, 2] ∧
    (3 : Nat) ∉ [1, 2] ∧
    removeServerListener [("join", [1, 2])] 3 "join" = .ok [("join", [1, 2])] := by
  refine ⟨by decide, by decide, ?_⟩
  exact ((removeServerListener_spec [("join", [1, 2])] 3 "join").1 [1, 2] (by decide)).2
    (by decide)

/-- A Python class appearing as (the resolved base of) a parameter
annotation of a command handler, abstracted to the facts `_build_args`
queries about it: its `REPR` string and whether it is a subclass of
`ArgumentType` and of `Suggester`. -/
structure TypeRef where
  reprStr : String
  isArgumentType : Bool
  isSuggester : Bool
deriving DecidableEq, Repr

/-- A parameter type hint as classified by `get_args`: `plain t` when
`get_args` returns no generic arguments, `opt t` when it does (e.g.
`Optional[t]`), in which case `t` is the first generic argument. -/
inductive Hint where
  | plain (t : TypeRef) : Hint
  | opt (t : TypeRef) : Hint
deriving DecidableEq, Repr

/-- The resolution `arg_type = generic_args[0] if generic_args else arg_type`. -/
def Hint.underlying : Hint → TypeRef
  | .plain t => t
  | .opt t => t

/-- Whether `get_args` returned generic arguments. -/
def Hint.isGeneric : Hint → Bool
  | .plain _ => false
  | .opt _ => true

/-- Prepend one parameter's contribution (its `arguments` entry, its
`suggestors` entry when the type is a `Suggester` subclass, and its
`arg_types` entry) to the containers built for the remaining parameters. -/
def consOut (n : String) (t : TypeRef) (so : Bool) :
    List Arg × List (String × TypeRef) × List (String × TypeRef) →
    List Arg × List (String × TypeRef) × List (String × TypeRef)
  | (args, suggestors, argTypes) =>
    (⟨n, t.reprStr, so⟩ :: args,
     (if t.isSuggester then [(n, t)] else []) ++ suggestors,
     (n, t) :: argTypes)

/-- The `for arg_name, arg_type in arg_hints.items()` loop of
`ServerCommand._build_args`, carrying the `started_optional` flag.  The
raised `ArgumentError` is modelled as `Except.error` with its message; the
flag passed on (and recorded in the entry's `optional` field) is
`started_optional or generic_args`. -/
def buildArgsLoop (startedOptional : Bool) :
    List (String × Hint) →
    Except String (List Arg × List (String × TypeRef) × List (String × TypeRef))
  | [] => .ok ([], [], [])
  | (n, h) :: rest =>
    if !h.underlying.isArgumentType || (startedOptional && !h.isGeneric) then
      .error "Invalid arguments for server command!"
    else
      (buildArgsLoop (startedOptional || h.isGeneric) rest).map
        (consOut n h.underlying (startedOptional || h.isGeneric))

/-- Model of `ServerCommand._build_args`: the hints are the annotated parameters
other than the context parameter (and `return`); with no such parameter the
function returns empty containers immediately, otherwise it runs the loop
with `started_optional` initially false. -/
def buildArgs (hints : List (String × Hint)) :
    Except String (List Arg × List (String × TypeRef) × List (String × TypeRef)) :=
  match hints with
  | [] => .ok ([], [], [])
  | _ :: _ => buildArgsLoop false hints

theorem buildArgs_eq_loop (l : List (String × Hint)) :
    buildArgs l = buildArgsLoop false l := by
  cases l <;> rfl

theorem buildArgsLoop_cons_err (so : Bool) (n : String) (h : Hint)
    (rest : List (String × Hint))
    (hcond : (!h.underlying.isArgumentType || (so && !h.isGeneric)) = true) :
    buildArgsLoop so ((n, h) :: rest) =
      .error "Invalid arguments for server command!" := by
  simp [buildArgsLoop, hcond]

theorem buildArgsLoop_cons_step (so : Bool) (n : String) (h : Hint)
    (rest : List (String × Hint))
    (hcond : (!h.underlying.isArgumentType || (so && !h.isGeneric)) = false) :
    buildArgsLoop so ((n, h) :: rest) =
      (buildArgsLoop (so || h.isGeneric) rest).map
        (consOut n h.underlying (so || h.isGeneric)) := by
  simp [buildArgsLoop, hcond]

/-- The data of a constructed `ServerCommand` relevant to argument building:
`ServerCommand.__init__` stores the three containers built by
`_build_args`. -/
structure SCmdData where
  name : String
  opLevel : Nat
  register : Bool
  arguments : List Arg
  suggestors : List (String × TypeRef)
  argTypes : List (String × TypeRef)
deriving DecidableEq, Repr

/-- Model of `ServerCommand.__init__` (as reached through the `command()` / `.sub()`
decorators), restricted to argument building: an `ArgumentError` escaping
`_build_args` prevents the command from being constructed at definition
time. -/
def mkServerCommand (name : String) (opLevel : Nat) (register : Bool)
    (hints : List (String × Hint)) : Except String SCmdData :=
  match buildArgs hints with
  | .error e => .error e
  | .ok (args, suggestors, argTypes) =>
    .ok ⟨name, opLevel, register, args, suggestors, argTypes⟩

/-- The `arguments` entry built for a parameter:
`{"name": ..., "type": arg_type.REPR, "optional": ...}`. -/
def mkArgEntry (optional : Bool) (p : String × Hint) : Arg :=
  ⟨p.1, p.2.underlying.reprStr, optional⟩

/-- The `suggestors` entries collected over a hint list (iteration order,
keeping the parameters whose resolved type is a `Suggester` subclass). -/
def suggEntries (l : List (String × Hint)) : List (String × TypeRef) :=
  (l.filter (fun p => p.2.underlying.isSuggester)).map
    (fun p => (p.1, p.2.underlying))

/-- The `arg_types` entries collected over a hint list (iteration order). -/
def typeEntries (l : List (String × Hint)) : List (String × TypeRef) :=
  l.map (fun p => (p.1, p.2.underlying))

theorem buildArgsLoop_all_opt :
    ∀ (l : List (String × Hint)) (so : Bool),
      (∀ p ∈ l, p.2.isGeneric = true ∧ p.2.underlying.isArgumentType = true) →
      buildArgsLoop so l =
        .ok (l.map (mkArgEntry true), suggEntries l, typeEntries l) := by
  intro l
  induction l with
  | nil => intro so _; rfl
  | cons q rest ih =>
    intro so hall
    obtain ⟨n, h⟩ := q
    obtain ⟨hg, ha⟩ := hall (n, h) (List.mem_cons_self _ _)
    have hrest := fun p hp => hall p (List.mem_cons_of_mem _ hp)
    have hcond : (!h.underlying.isArgumentType || (so && !h.isGeneric)) = false := by
      simp only at hg ha
      simp [ha, hg]
    rw [buildArgsLoop_cons_step so n h rest hcond]
    simp only at hg
    rw [hg, Bool.or_true, ih true hrest]
    by_cases hs : h.underlying.isSuggester = true <;>
      simp [consOut, Except.map, mkArgEntry, suggEntries, typeEntries,
        List.filter_cons, hs]

theorem buildArgsLoop_split :
    ∀ (req opt : List (String × Hint)),
      (∀ p ∈ req, p.2.isGeneric = false ∧ p.2.underlying.isArgumentType = true) →
      (∀ p ∈ opt, p.2.isGeneric = true ∧ p.2.underlying.isArgumentType = true) →
      buildArgsLoop false (req ++ opt) =
        .ok (req.map (mkArgEntry false) ++ opt.map (mkArgEntry true),
             suggEntries (req ++ opt), typeEntries (req ++ opt)) := by
  intro req
  induction req with
  | nil =>
    intro opt _ hopt
    simpa using buildArgsLoop_all_opt opt false hopt
  | cons q rest ih =>
    intro opt hreq hopt
    obtain ⟨n, h⟩ := q
    obtain ⟨hg, ha⟩ := hreq (n, h) (List.mem_cons_self _ _)
    have hrest := fun p hp => hreq p (List.mem_cons_of_mem _ hp)
    simp only at hg ha
    have hcond : (!h.underlying.isArgumentType || (false && !h.isGeneric)) = false := by
      simp [ha]
    rw [List.cons_append, buildArgsLoop_cons_step false n h (rest ++ opt) hcond,
      hg, Bool.or_false, ih opt hrest hopt]
    by_cases hs : h.underlying.isSuggester = true <;>
      simp [consOut, Except.map, mkArgEntry, suggEntries, typeEntries,
        List.filter_cons, hs]

theorem buildArgsLoop_bad_type :
    ∀ (l : List (String × Hint)) (so : Bool),
      (∃ p ∈ l, p.2.underlying.isArgumentType = false) →
      buildArgsLoop so l = .error "Invalid arguments for server command!" := by
  intro l
  induction l with
  | nil => intro so hex; obtain ⟨p, hp, _⟩ := hex; cases hp
  | cons q rest ih =>
    intro so hex
    obtain ⟨n, h⟩ := q
    obtain ⟨p, hp, hbad⟩ := hex
    rcases List.mem_cons.mp hp with hp | hp
    · subst hp
      simp only at hbad
      exact buildArgsLoop_cons_err so n h rest (by simp [hbad])
    · rcases hcond : (!h.underlying.isArgumentType || (so && !h.isGeneric)) with _ | _
      · rw [buildArgsLoop_cons_step so n h rest hcond,
          ih _ ⟨p, hp, hbad⟩]
        rfl
      · exact buildArgsLoop_cons_err so n h rest hcond

theorem buildArgsLoop_plain_after_started :
    ∀ (l : List (String × Hint)),
      (∃ p ∈ l, p.2.isGeneric = false) →
      buildArgsLoop true l = .error "Invalid arguments for server command!" := by
  intro l
  induction l with
  | nil => intro hex; obtain ⟨p, hp, _⟩ := hex; cases hp
  | cons q rest ih =>
    intro hex
    obtain ⟨n, h⟩ := q
    obtain ⟨p, hp, hbad⟩ := hex
    rcases List.mem_cons.mp hp with hp | hp
    · subst hp
      simp only at hbad
      exact buildArgsLoop_cons_err true n h rest (by simp [hbad])
    · rcases hcond : (!h.underlying.isArgumentType || (true && !h.isGeneric)) with _ | _
      · have hg : h.isGeneric = true := by
          rcases hgen : h.isGeneric with _ | _
          · simp [hgen] at hcond
          · rfl
        rw [buildArgsLoop_cons_step true n h rest hcond, hg, Bool.or_true,
          ih ⟨p, hp, hbad⟩]
        rfl
      · exact buildArgsLoop_cons_err true n h rest hcond

theorem buildArgsLoop_plain_after_opt :
    ∀ (pre : List (String × Hint)) (x : String × Hint)
      (suf : List (String × Hint)) (so : Bool),
      x.2.isGeneric = true → (∃ p ∈ suf, p.2.isGeneric = false) →
      buildArgsLoop so (pre ++ x :: suf) =
        .error "Invalid arguments for server command!" := by
  intro pre
  induction pre with
  | nil =>
    intro x suf so hx hex
    obtain ⟨n, h⟩ := x
    simp only at hx
    rcases hcond : (!h.underlying.isArgumentType || (so && !h.isGeneric)) with _ | _
    · rw [List.nil_append, buildArgsLoop_cons_step so n h suf hcond, hx,
        Bool.or_true, buildArgsLoop_plain_after_started suf hex]
      rfl
    · exact List.nil_append (((n, h)) :: suf) ▸ buildArgsLoop_cons_err so n h suf hcond
  | cons q rest ih =>
    intro x suf so hx hex
    obtain ⟨n, h⟩ := q
    rcases hcond : (!h.underlying.isArgumentType || (so && !h.isGeneric)) with _ | _
    · rw [List.cons_append, buildArgsLoop_cons_step so n h (rest ++ x :: suf) hcond,
        ih x suf _ hx hex]
      rfl
    · exact List.cons_append (n, h) rest (x :: suf) ▸
        buildArgsLoop_cons_err so n h (rest ++ x :: suf) hcond

/-- C5: a handler whose non-context parameter annotations contain a type not
resolving to an `ArgumentType` subclass, or a parameter that is not
optional-wrapped after an optional-wrapped one, fails at decoration time
with the `ArgumentError` "Invalid arguments for server command!" and no
`ServerCommand` is produced; a handler whose annotations are a block of
required `ArgumentType` parameters followed by a block of optional-wrapped
ones builds the argument list marking exactly the trailing block
`optional: true` and the leading block `optional: false`, in declaration
order. -/
theorem buildArgs_validation_spec :
    (∀ hints : List (String × Hint),
      (∃ p ∈ hints, p.2.underlying.isArgumentType = false) →
      buildArgs hints = .error "Invalid arguments for server command!") ∧
    (∀ (pre : List (String × Hint)) (x : String × Hint)
        (suf : List (String × Hint)),
      x.2.isGeneric = true → (∃ p ∈ suf, p.2.isGeneric = false) →
      buildArgs (pre ++ x :: suf) =
        .error "Invalid arguments for server command!") ∧
    (∀ req opt : List (String × Hint),
      (∀ p ∈ req, p.2.isGeneric = false ∧ p.2.underlying.isArgumentType = true) →
      (∀ p ∈ opt, p.2.isGeneric = true ∧ p.2.underlying.isArgumentType = true) →
      buildArgs (req ++ opt) =
        .ok (req.map (mkArgEntry false) ++ opt.map (mkArgEntry true),
             suggEntries (req ++ opt), typeEntries (req ++ opt))) ∧
    (∀ (name : String) (opLevel : Nat) (reg : Bool)
        (hints : List (String × Hint)) (e : String),
      buildArgs hints = .error e →
      mkServerCommand name opLevel reg hints = .error e) := by
  refine ⟨?_, ?_, ?_, ?_⟩
  · intro hints hex
    rw [buildArgs_eq_loop]
    exact buildArgsLoop_bad_type hints false hex
  · intro pre x suf hx hex
    rw [buildArgs_eq_loop]
    exact buildArgsLoop_plain_after_opt pre x suf false hx hex
  · intro req opt hreq hopt
    rw [buildArgs_eq_loop]
    exact buildArgsLoop_split req opt hreq hopt
  · intro name opLevel reg hints e herr
    simp [mkServerCommand, herr]

theorem buildArgs_validation_inst :
    (buildArgs [("a", Hint.opt ⟨"Str", true, false⟩),
                ("b", Hint.plain ⟨"Num", true, false⟩)] =
      .error "Invalid arguments for server command!") ∧
    buildArgs [("a", Hint.plain ⟨"Str", true, false⟩),
               ("b", Hint.opt ⟨"Num", true, true⟩)] =
      .ok ([("a", Hint.plain ⟨"Str", true, false⟩)].map (mkArgEntry false) ++
             [("b", Hint.opt ⟨"Num", true, true⟩)].map (mkArgEntry true),
           suggEntries [("a", Hint.plain ⟨"Str", true, false⟩),
                        ("b", Hint.opt ⟨"Num", true, true⟩)],
           typeEntries [("a", Hint.plain ⟨"Str", true, false⟩),
                        ("b", Hint.opt ⟨"Num", true, true⟩)]) := by
  constructor
  · exact buildArgs_validation_spec.2.1 []
      ("a", Hint.opt ⟨"Str", true, false⟩)
      [("b", Hint.plain ⟨"Num", true, false⟩)] (by decide)
      ⟨("b", Hint.plain ⟨"Num", true, false⟩), by decide, by decide⟩
  · exact buildArgs_validation_spec.2.2.1
      [("a", Hint.plain ⟨"Str", true, false⟩)]
      [("b", Hint.opt ⟨"Num", true, true⟩)]
      (by intro p hp; rcases List.mem_cons.mp hp with h | h
          · subst h; exact ⟨rfl, rfl⟩
          · cases h)
      (by intro p hp; rcases List.mem_cons.mp hp with h | h
          · subst h; exact ⟨rfl, rfl⟩
          · cases h)

/-- C9: a coroutine handler whose only parameter is the execution context
yields no argument hints, so the produced `ServerCommand` has an empty
argument list, empty suggestors mapping, and empty arg-types mapping. -/
theorem mkServerCommand_no_args_spec (name : String) (opLevel : Nat)
    (reg : Bool) :
    mkServerCommand name opLevel reg [] =
      .ok ⟨name, opLevel, reg, [], [], []⟩ := rfl

/-- A `TrackedEvent` MongoDB document as used by `LiteBot._dispatch_timers`:
its event tag, its optional expiry time (UTC instants modelled as natural
numbers), and an id distinguishing documents. -/
structure TrackedEvent where
  id : Nat
  eventTag : String
  expireTime : Option Nat
deriving DecidableEq, Repr

/-- Whether `_dispatch_timers` selects the record in the current cycle: a
record with no `expire_time` is skipped by the `continue`, the others when
`datetime.utcnow() >= event.expire_time`. -/
def expired (now : Nat) (e : TrackedEvent) : Bool :=
  match e.expireTime with
  | none => false
  | some t => decide (t ≤ now)

/-- One polling cycle of the `while True` body of `LiteBot._dispatch_timers`:
iterate over the snapshot `TrackedEvent.objects()`, skip records with no
`expire_time`, and for each expired record dispatch
`f"{event.event_tag}_expire"` carrying the record, then `event.delete()`.
Returns the dispatched (event-name, record) pairs in iteration order and
the database remaining for the next cycle. -/
def dispatchTimersStep (now : Nat) :
    List TrackedEvent → List (String × TrackedEvent) × List TrackedEvent
  | [] => ([], [])
  | e :: rest =>
    let res := dispatchTimersStep now rest
    if expired now e then
      ((e.eventTag ++ "_expire", e) :: res.1, res.2)
    else
      (res.1, e :: res.2)

/-- Repeated polling cycles at the given sequence of wall-clock instants,
accumulating every dispatched event and threading the database (a deleted
record is absent from every later snapshot). -/
def runTimers : List Nat → List TrackedEvent →
    List (String × TrackedEvent) × List TrackedEvent
  | [], db => ([], db)
  | now :: laterTimes, db =>
    let stp := dispatchTimersStep now db
    let rest := runTimers laterTimes stp.2
    (stp.1 ++ rest.1, rest.2)

theorem dispatchTimersStep_fst (now : Nat) :
    ∀ db : List TrackedEvent,
      (dispatchTimersStep now db).1 =
        (db.filter (expired now)).map (fun x => (x.eventTag ++ "_expire", x)) := by
  intro db
  induction db with
  | nil => rfl
  | cons e rest ih =>
    rcases h : expired now e with _ | _ <;>
      simp [dispatchTimersStep, List.filter_cons, h, ih]

theorem dispatchTimersStep_snd (now : Nat) :
    ∀ db : List TrackedEvent,
      (dispatchTimersStep now db).2 = db.filter (fun x => !expired now x) := by
  intro db
  induction db with
  | nil => rfl
  | cons e rest ih =>
    rcases h : expired now e with _ | _ <;>
      simp [dispatchTimersStep, List.filter_cons, h, ih]

theorem dispatchTimersStep_fst_mem (now : Nat) (db : List TrackedEvent)
    (p : String × TrackedEvent) (hp : p ∈ (dispatchTimersStep now db).1) :
    p.2 ∈ db ∧ expired now p.2 = true ∧ p.1 = p.2.eventTag ++ "_expire" := by
  rw [dispatchTimersStep_fst] at hp
  obtain ⟨x, hx, hpx⟩ := List.mem_map.mp hp
  obtain ⟨hxdb, hxexp⟩ := List.mem_filter.mp hx
  subst hpx
  exact ⟨hxdb, hxexp, rfl⟩

theorem dispatchTimersStep_snd_subset (now : Nat) (db : List TrackedEvent)
    (e : TrackedEvent) (he : e ∈ (dispatchTimersStep now db).2) :
    e ∈ db ∧ expired now e = false := by
  rw [dispatchTimersStep_snd] at he
  obtain ⟨hdb, hne⟩ := List.mem_filter.mp he
  exact ⟨hdb, by simpa using hne⟩

theorem dispatchTimersStep_countP_zero (now : Nat) (db : List TrackedEvent)
    (e : TrackedEvent) (he : e ∉ db) :
    (dispatchTimersStep now db).1.countP (fun p => decide (p.2 = e)) = 0 := by
  apply List.countP_eq_zero.mpr
  intro p hp
  obtain ⟨hmem, _, _⟩ := dispatchTimersStep_fst_mem now db p hp
  simp only [decide_eq_true_eq]
  intro hpe
  exact he (hpe ▸ hmem)

theorem dispatchTimersStep_countP_one (now : Nat) :
    ∀ (db : List TrackedEvent) (e : TrackedEvent), db.Nodup → e ∈ db →
      expired now e = true →
      (dispatchTimersStep now db).1.countP (fun p => decide (p.2 = e)) = 1 := by
  intro db
  induction db with
  | nil => intro e _ he _; cases he
  | cons a rest ih =>
    intro e hnd he hexp
    have hnd2 : rest.Nodup := (List.nodup_cons.mp hnd).2
    rcases List.mem_cons.mp he with he | he
    · subst he
      have hnotin : e ∉ rest := (List.nodup_cons.mp hnd).1
      simp only [dispatchTimersStep, hexp, if_pos, List.countP_cons,
        decide_eq_true_eq]
      rw [dispatchTimersStep_countP_zero now rest e hnotin]
    · have hne : a ≠ e := by
        intro h
        exact (List.nodup_cons.mp hnd).1 (h ▸ he)
      rcases ha : expired now a with _ | _
      · simp only [dispatchTimersStep, ha, Bool.false_eq_true, if_neg,
          not_false_iff]
        exact ih e hnd2 he hexp
      · simp only [dispatchTimersStep, ha, if_pos, List.countP_cons,
          decide_eq_true_eq]
        rw [ih e hnd2 he hexp]
        simp [hne]

theorem runTimers_not_expired (e : TrackedEvent)
    (hnever : ∀ n, expired n e = false) :
    ∀ (times : List Nat) (db : List TrackedEvent), e ∈ db →
      e ∈ (runTimers times db).2 ∧
      (runTimers times db).1.countP (fun p => decide (p.2 = e)) = 0 := by
  intro times
  induction times with
  | nil => intro db he; exact ⟨he, rfl⟩
  | cons now later ih =>
    intro db he
    have hmem : e ∈ (dispatchTimersStep now db).2 := by
      rw [dispatchTimersStep_snd]
      exact List.mem_filter.mpr ⟨he, by simp [hnever now]⟩
    have hstep0 :
        (dispatchTimersStep now db).1.countP (fun p => decide (p.2 = e)) = 0 := by
      apply List.countP_eq_zero.mpr
      intro p hp
      obtain ⟨_, hexp, _⟩ := dispatchTimersStep_fst_mem now db p hp
      simp only [decide_eq_true_eq]
      intro hpe
      rw [hpe, hnever now] at hexp
      cases hexp
    obtain ⟨ih1, ih2⟩ := ih (dispatchTimersStep now db).2 hmem
    refine ⟨ih1, ?_⟩
    simp only [runTimers, List.countP_append, hstep0, ih2]

theorem runTimers_absent (e : TrackedEvent) :
    ∀ (times : List Nat) (db : List TrackedEvent), e ∉ db →
      e ∉ (runTimers times db).2 ∧
      (runTimers times db).1.countP (fun p => decide (p.2 = e)) = 0 := by
  intro times
  induction times with
  | nil => intro db he; exact ⟨he, rfl⟩
  | cons now later ih =>
    intro db he
    have hmem : e ∉ (dispatchTimersStep now db).2 := by
      intro hc
      exact he (dispatchTimersStep_snd_subset now db e hc).1
    obtain ⟨ih1, ih2⟩ := ih (dispatchTimersStep now db).2 hmem
    refine ⟨ih1, ?_⟩
    simp only [runTimers, List.countP_append, ih2,
      dispatchTimersStep_countP_zero now db e he]

/-- C2: across the polling cycles of `_dispatch_timers` at any sequence of
wall-clock instants, a `TrackedEvent` with no `expire_time` is never
dispatched and never deleted; a `TrackedEvent` whose `expire_time` is set
and is at most the current UTC time is dispatched in that cycle — exactly
once over the whole run — as the event named `<event_tag>_expire` carrying
the record, and is then deleted, so it is neither dispatched nor present in
any subsequent polling cycle. -/
theorem dispatch_timers_spec (e : TrackedEvent) (db : List TrackedEvent)
    (times : List Nat) (now : Nat) (later : List Nat) :
    (e.expireTime = none → e ∈ db →
      e ∈ (runTimers times db).2 ∧
      (runTimers times db).1.countP (fun p => decide (p.2 = e)) = 0) ∧
    (∀ t, e.expireTime = some t → t ≤ now → e ∈ db → db.Nodup →
      (e.eventTag ++ "_expire", e) ∈ (dispatchTimersStep now db).1 ∧
      (runTimers (now :: later) db).1.countP (fun p => decide (p.2 = e)) = 1 ∧
      (runTimers later (dispatchTimersStep now db).2).1.countP
        (fun p => decide (p.2 = e)) = 0 ∧
      e ∉ (runTimers (now :: later) db).2) := by
  constructor
  · intro hnone he
    have hnever : ∀ n, expired n e = false := by
      intro n; simp [expired, hnone]
    exact runTimers_not_expired e hnever times db he
  · intro t hsome hle he hnd
    have hexp : expired now e = true := by
      simp [expired, hsome, hle]
    have hgone : e ∉ (dispatchTimersStep now db).2 := by
      intro hc
      have := (dispatchTimersStep_snd_subset now db e hc).2
      rw [hexp] at this
      cases this
    obtain ⟨habs1, habs2⟩ := runTimers_absent e later (dispatchTimersStep now db).2 hgone
    refine ⟨?_, ?_, habs2, habs1⟩
    · rw [dispatchTimersStep_fst]
      exact List.mem_map.mpr ⟨e, List.mem_filter.mpr ⟨he, hexp⟩, rfl⟩
    · simp only [runTimers, List.countP_append, habs2,
        dispatchTimersStep_countP_one now db e hnd he hexp]

theorem dispatch_timers_inst :
    ((⟨1, "tp", none⟩ : TrackedEvent).expireTime = none ∧
      (⟨1, "tp", none⟩ : TrackedEvent) ∈
        (runTimers [10, 20] [⟨1, "tp", none⟩, ⟨2, "warn", some 5⟩]).2 ∧
      (runTimers [10, 20] [⟨1, "tp", none⟩, ⟨2, "warn", some 5⟩]).1.countP
        (fun p => decide (p.2 = (⟨1, "tp", none⟩ : TrackedEvent))) = 0) ∧
    (("warn_expire", (⟨2, "warn", some 5⟩ : TrackedEvent)) ∈
        (dispatchTimersStep 10 [⟨1, "tp", none⟩, ⟨2, "warn", some 5⟩]).1 ∧
      (runTimers [10, 20] [⟨1, "tp", none⟩, ⟨2, "warn", some 5⟩]).1.countP
        (fun p => decide (p.2 = (⟨2, "warn", some 5⟩ : TrackedEvent))) = 1 ∧
      (⟨2, "warn", some 5⟩ : TrackedEvent) ∉
        (runTimers [10, 20] [⟨1, "tp", none⟩, ⟨2, "warn", some 5⟩]).2) := by
  constructor
  · refine ⟨rfl, ?_, ?_⟩
    · exact ((dispatch_timers_spec ⟨1, "tp", none⟩
        [⟨1, "tp", none⟩, ⟨2, "warn", some 5⟩] [10, 20] 10 [20]).1 rfl
        (by decide)).1
    · exact ((dispatch_timers_spec ⟨1, "tp", none⟩
        [⟨1, "tp", none⟩, ⟨2, "warn", some 5⟩] [10, 20] 10 [20]).1 rfl
        (by decide)).2
  · have h := (dispatch_timers_spec ⟨2, "warn", some 5⟩
      [⟨1, "tp", none⟩, ⟨2, "warn", some 5⟩] [10, 20] 10 [20]).2 5 rfl
      (by decide) (by decide) (by decide)
    exact ⟨h.1, h.2.1, h.2.2.2⟩

end LiteBotSpec
